import Mathlib

/-!
# Verification of `eztimer::time` (tatami-inc/eztimer)

Shallow embedding of `src/include/eztimer/eztimer.hpp`.

Modelling conventions:
* Durations (`std::chrono::duration<double>`) are rationals (ℚ), in seconds.
  All duration arithmetic performed by the program (addition, division by a
  positive count) stays within the finite range, except for the standard
  deviation's Bessel division which can divide by zero; that one division is
  modelled by `divD`, returning `none` for the non-finite (Inf/NaN) IEEE
  result of dividing by zero.
* Wall-clock measurements are inherently nondeterministic, so the embedding
  is parameterised by an `oracle : ℕ → ℚ` giving the elapsed duration
  (`end - start`) observed by the k-th function invocation of the run.
* A candidate (`std::function<Result_()>`) may be a stateful closure, so it
  is modelled as a function of the global invocation count; invoking a
  candidate is recorded in the `calls` trace of the loop state.
* The validation callback may throw; this is modelled by `check` returning
  `Except ε Unit`, and `time` returning `Except ε (List Timings)` —
  a thrown exception propagates out and no partial result is returned.
* `iterations` and `burn_in` are C++ `int`s; negative values are declared
  out of scope by the documentation, so they are modelled as ℕ.
-/

namespace EzTimer

/-- Embedding of `eztimer::Options` (eztimer.hpp lines 27-64). -/
structure Options where
  iterations : ℕ := 10
  burn_in : ℕ := 1
  seed : ℕ := 123456
  max_time_per_function : Option ℚ := none
  max_time_total : Option ℚ := none
deriving DecidableEq

/-- Embedding of `eztimer::Timings` (eztimer.hpp lines 69-84).
`sd` is `Option ℚ`: `some q` is a finite double, `none` the non-finite
result of the unguarded Bessel division by zero (see `divD`). -/
structure Timings where
  times : List ℚ := []
  mean : ℚ := 0
  sd : Option ℚ := some 0
deriving DecidableEq

instance instDecidableEqExcept {ε α : Type} [DecidableEq ε] [DecidableEq α] :
    DecidableEq (Except ε α) := fun x y =>
  match x, y with
  | .error a, .error b =>
    if h : a = b then isTrue (by rw [h]) else isFalse (fun hh => h (by cases hh; rfl))
  | .ok a, .ok b =>
    if h : a = b then isTrue (by rw [h]) else isFalse (fun hh => h (by cases hh; rfl))
  | .error _, .ok _ => isFalse (fun hh => Except.noConfusion hh)
  | .ok _, .error _ => isFalse (fun hh => Except.noConfusion hh)

/-- IEEE double division as used for the standard deviation: dividing a
finite value by zero yields a non-finite double (±Inf, or NaN for 0/0),
modelled as `none`; no clamping or guarding is applied. -/
def divD (a b : ℚ) : Option ℚ :=
  if b = 0 then none else some (a / b)

/-! ## The `std::mt19937_64` engine

`std::mersenne_twister_engine<uint64_t, 64, 312, 156, 31, 0xb5026f5aa96619e9,
29, 0x5555555555555555, 17, 0x71d67fffeda60000, 37, 0xfff7eee000000000, 43,
6364136223846793005>` as fully specified by the C++ standard.
Machine words are ℕ reduced mod 2^64. -/

def M64 : ℕ := 2 ^ 64

def mtLowerMask : ℕ := 2 ^ 31 - 1

def mtUpperMask : ℕ := (2 ^ 64 - 1) - mtLowerMask

/-- State of the mt19937_64 engine: 312 words plus the read index. -/
structure MT where
  words : Array ℕ
  idx : ℕ
deriving DecidableEq

/-- Seeding recurrence: `mt[i] = f * (mt[i-1] ^ (mt[i-1] >> 62)) + i mod 2^64`
with `f = 6364136223846793005`. -/
def mtSeedWord (prev i : ℕ) : ℕ :=
  (6364136223846793005 * (prev ^^^ (prev >>> 62)) + i) % M64

/-- Builds `k` further words of the seed sequence starting from word `w`
at position `i`. -/
def mtSeedFrom (w i : ℕ) : ℕ → List ℕ
  | 0 => []
  | k + 1 =>
    let w' := mtSeedWord w i
    w' :: mtSeedFrom w' (i + 1) k

/-- `std::mt19937_64 rng(seed)` (eztimer.hpp line 115). -/
def mtInit (seed : ℕ) : MT :=
  { words := ((seed % M64) :: mtSeedFrom (seed % M64) 1 311).toArray, idx := 312 }

/-- One in-place update of the twist loop at position `i`. -/
def mtTwistStep (a : Array ℕ) (i : ℕ) : Array ℕ :=
  let x := (a.getD i 0 &&& mtUpperMask) + (a.getD ((i + 1) % 312) 0 &&& mtLowerMask)
  let xA := x >>> 1
  let xA := if x % 2 = 1 then xA ^^^ 0xb5026f5aa96619e9 else xA
  a.set! i ((a.getD ((i + 156) % 312) 0) ^^^ xA)

/-- The full twist, regenerating all 312 words in place. -/
def mtTwist (a : Array ℕ) : Array ℕ :=
  (List.range 312).foldl mtTwistStep a

/-- Output tempering. -/
def mtTemper (y0 : ℕ) : ℕ :=
  let y1 := y0 ^^^ ((y0 >>> 29) &&& 0x5555555555555555)
  let y2 := y1 ^^^ (((y1 <<< 17) % M64) &&& 0x71d67fffeda60000)
  let y3 := y2 ^^^ (((y2 <<< 37) % M64) &&& 0xfff7eee000000000)
  y3 ^^^ (y3 >>> 43)

/-- Draw one 64-bit value, advancing the engine. -/
def mtNext (g : MT) : ℕ × MT :=
  if 312 ≤ g.idx then
    let a := mtTwist g.words
    (mtTemper (a.getD 0 0), { words := a, idx := 1 })
  else
    (mtTemper (g.words.getD g.idx 0), { words := g.words, idx := g.idx + 1 })

/-! ## The schedule builder (eztimer.hpp lines 113-123) -/

/-- Swap the elements at positions `a` and `b` of `l`. -/
def swapL (l : List ℕ) (a b : ℕ) : List ℕ :=
  let x := l.getD a 0
  let y := l.getD b 0
  (l.set a y).set b x

/-- One step of the Fisher-Yates loop: draw `j` uniformly in `[0, k]` and
swap positions `k` and `j`. -/
def shuffleStep (p : List ℕ × MT) (k : ℕ) : List ℕ × MT :=
  let v := mtNext p.2
  (swapL p.1 k (v.1 % (k + 1)), v.2)

/-- Modelled from the spec: the exact algorithm of `std::shuffle` and the
value mapping of `std::uniform_int_distribution` are implementation-defined
and not part of the repository's sources; following the spec's
"Fisher-Yates-style shuffle ... from a single deterministic pseudo-random
generator", this is the forward Fisher-Yates loop (`for k = 1 .. n-1:
j ← draw mod (k+1); swap a[k] a[j]`) drawing from the mt19937_64 engine
threaded through all blocks (eztimer.hpp line 122). -/
def shuffle (l : List ℕ) (g : MT) : List ℕ × MT :=
  (List.range' 1 (l.length - 1)).foldl shuffleStep (l, g)

/-- The per-round blocks of the execution order: each round pushes
`0, …, nfun-1` and shuffles that block, threading the generator
(eztimer.hpp lines 116-123). -/
def buildBlocks (nfun : ℕ) : ℕ → MT → List (List ℕ) × MT
  | 0, g => ([], g)
  | k + 1, g =>
    let p := shuffle (List.range nfun) g
    let q := buildBlocks nfun k p.2
    (p.1 :: q.1, q.2)

/-- The schedule as a list of `iterations + burn_in` blocks. -/
def schedule (opt : Options) (nfun : ℕ) : List (List ℕ) :=
  (buildBlocks nfun (opt.iterations + opt.burn_in) (mtInit opt.seed)).1

/-- The flat `order` vector of eztimer.hpp lines 116-123: the concatenation
of the blocks. -/
def order (opt : Options) (nfun : ℕ) : List ℕ :=
  (schedule opt nfun).flatten

/-- The dispatch loop walks the flat order while tracking the round index
`i` (eztimer.hpp lines 129-130); equivalently, each block is paired with
its round index and the result flattened. -/
def entriesOfBlocks : ℕ → List (List ℕ) → List (ℕ × ℕ)
  | _, [] => []
  | i, b :: bs => b.map (fun c => (i, c)) ++ entriesOfBlocks (i + 1) bs

/-- The full sequence of (round, candidate) dispatch entries. -/
def scheduleEntries (opt : Options) (nfun : ℕ) : List (ℕ × ℕ) :=
  entriesOfBlocks 0 (schedule opt nfun)

/-! ## The dispatch loop (eztimer.hpp lines 125-157) -/

/-- State of the dispatch loop: the `output` vector under construction, the
`total_time` accumulator, and the trace of candidate invocations performed
so far (`calls`, whose length is the global invocation count). -/
structure LoopState where
  output : List Timings
  total_time : ℚ
  calls : List ℕ
deriving DecidableEq

/-- The `Timings` entry of candidate `c` in state `s`. -/
def outAt (s : LoopState) (c : ℕ) : Timings :=
  s.output.getD c {}

/-- `cap.has_value() && cap ≤ v`: the budget comparison
`accumulator >= *cap` of eztimer.hpp lines 135 and 138. -/
def capReached : Option ℚ → ℚ → Prop
  | none, _ => False
  | some cap, v => cap ≤ v

instance instDecidableCapReached (c : Option ℚ) (v : ℚ) : Decidable (capReached c v) :=
  match c with
  | none => isFalse (fun h => h)
  | some cap => inferInstanceAs (Decidable (cap ≤ v))

variable {Result_ : Type} {ε : Type} [Inhabited Result_]

/-- One iteration of the inner dispatch loop (eztimer.hpp lines 131-155) for
round `i` and schedule entry `current`.  In a timed round (`burn_in ≤ i`)
the two budget `continue`s may skip the call; otherwise the candidate is
invoked (traced in `calls`), the elapsed duration (given by `oracle` at the
current invocation count) is appended to its `times`, and in a timed round
the validation callback runs (its error propagating) and the duration is
accumulated into the running `mean` sum and, when a total budget is
configured, into `total_time`. -/
def step (funs : List (ℕ → Result_)) (check : Result_ → ℕ → Except ε Unit)
    (opt : Options) (oracle : ℕ → ℚ) (i : ℕ) (s : LoopState) (current : ℕ) :
    Except ε LoopState :=
  let curout := outAt s current
  if opt.burn_in ≤ i ∧
      (capReached opt.max_time_per_function curout.mean ∨
        capReached opt.max_time_total s.total_time) then
    .ok s
  else
    let curtime := oracle s.calls.length
    let res := (funs.getD current (fun _ => default)) s.calls.length
    let curout1 : Timings := { curout with times := curout.times ++ [curtime] }
    if opt.burn_in ≤ i then
      match check res current with
      | .error e => .error e
      | .ok _ =>
        let curout2 : Timings := { curout1 with mean := curout1.mean + curtime }
        let total1 := if opt.max_time_total.isSome then s.total_time + curtime
                      else s.total_time
        .ok { output := s.output.set current curout2, total_time := total1,
              calls := s.calls ++ [current] }
    else
      .ok { output := s.output.set current curout1, total_time := s.total_time,
            calls := s.calls ++ [current] }

/-- Runs the dispatch loop over a list of (round, candidate) entries,
propagating any validation error. -/
def runEntries (funs : List (ℕ → Result_)) (check : Result_ → ℕ → Except ε Unit)
    (opt : Options) (oracle : ℕ → ℚ) :
    List (ℕ × ℕ) → LoopState → Except ε LoopState
  | [], s => .ok s
  | e :: rest, s =>
    match step funs check opt oracle e.1 s e.2 with
    | .error err => .error err
    | .ok s' => runEntries funs check opt oracle rest s'

/-! ## The reducer (eztimer.hpp lines 160-176) -/

/-- Per-candidate reduction: erase the first `b` (burn-in) recorded times;
if nothing remains, leave mean and sd untouched and skip the variance pass;
otherwise divide the running `mean` sum by the sample count and compute the
standard deviation by accumulating squared deviations onto the (zero) `sd`
field and dividing by `count - 1` — `size_t` subtraction, so `count = 1`
divides by zero (`divD`). -/
def reduceTimings (b : ℕ) (t : Timings) : Timings :=
  let trimmed := t.times.drop b
  if trimmed = [] then
    { t with times := trimmed }
  else
    let m := t.mean / (trimmed.length : ℚ)
    let sumsq := trimmed.foldl (fun acc x => acc + (x - m) * (x - m)) (t.sd.getD 0)
    { times := trimmed, mean := m, sd := divD sumsq ((trimmed.length - 1 : ℕ) : ℚ) }

/-- The initial loop state: `std::vector<Timings> output(nfun)`, zero
`total_time`, no invocations yet (eztimer.hpp lines 125-126). -/
def initState (nfun : ℕ) : LoopState :=
  { output := List.replicate nfun {}, total_time := 0, calls := [] }

/-- Embedding of `eztimer::time` (eztimer.hpp lines 104-179). -/
def time (funs : List (ℕ → Result_)) (check : Result_ → ℕ → Except ε Unit)
    (opt : Options) (oracle : ℕ → ℚ) : Except ε (List Timings) :=
  let nfun := funs.length
  match runEntries funs check opt oracle (scheduleEntries opt nfun) (initState nfun) with
  | .error e => .error e
  | .ok s => .ok (s.output.map (reduceTimings opt.burn_in))

/-! ## List helper lemmas -/

theorem getD_set_self {α : Type} (l : List α) (n : ℕ) (v d : α) (h : n < l.length) :
    (l.set n v).getD n d = v := by
  simp [List.getD_eq_getElem?_getD, List.getElem?_set_self h]

theorem getD_set_ne {α : Type} (l : List α) {n m : ℕ} (v d : α) (h : n ≠ m) :
    (l.set n v).getD m d = l.getD m d := by
  simp [List.getD_eq_getElem?_getD, List.getElem?_set_ne h]

theorem getD_eq_getElem {α : Type} (l : List α) (n : ℕ) (d : α) (h : n < l.length) :
    l.getD n d = l[n] := by
  simp [List.getD_eq_getElem?_getD, List.getElem?_eq_getElem h]

theorem foldl_add_eq_sum (f : ℚ → ℚ) (l : List ℚ) :
    ∀ a0 : ℚ, l.foldl (fun acc x => acc + f x) a0 = a0 + (l.map f).sum := by
  induction l with
  | nil => intro a0; simp
  | cons x xs ih =>
    intro a0
    simp only [List.foldl_cons, List.map_cons, List.sum_cons, ih (a0 + f x)]
    ring

/-! ## Permutation facts about the schedule builder -/

theorem swapL_perm (l : List ℕ) (a b : ℕ) (ha : a < l.length) (hb : b < l.length) :
    (swapL l a b).Perm l := by
  have hx : l.getD a 0 = l[a] := getD_eq_getElem l a 0 ha
  have hy : l.getD b 0 = l[b] := getD_eq_getElem l b 0 hb
  unfold swapL
  rw [hx, hy, List.perm_iff_count]
  intro c
  have hb' : b < (l.set a l[b]).length := by simpa using hb
  have hsb : (l.set a l[b])[b] = l[b] := by
    rw [List.getElem_set hb']; split <;> rfl
  have h1 : List.count c (l.set a l[b]) =
      (List.count c l - if (l[a] == c) = true then 1 else 0) +
        if (l[b] == c) = true then 1 else 0 := List.count_set _ _ _ _ ha
  have h2 : List.count c ((l.set a l[b]).set b l[a]) =
      (List.count c (l.set a l[b]) -
          if ((l.set a l[b])[b] == c) = true then 1 else 0) +
        if (l[a] == c) = true then 1 else 0 := List.count_set _ _ _ _ hb'
  rw [hsb] at h2
  have hma : l[a] = c → 0 < List.count c l := by
    intro h; subst h; exact List.count_pos_iff.mpr (List.getElem_mem ha)
  have hmb : l[b] = c → 0 < List.count c l := by
    intro h; subst h; exact List.count_pos_iff.mpr (List.getElem_mem hb)
  simp only [beq_iff_eq] at h1 h2
  rw [h2, h1]
  by_cases e1 : l[a] = c <;> by_cases e2 : l[b] = c
  · have := hma e1; simp only [if_pos e1, if_pos e2]; omega
  · have := hma e1; simp only [if_pos e1, if_neg e2]; omega
  · have := hmb e2; simp only [if_neg e1, if_pos e2]; omega
  · simp only [if_neg e1, if_neg e2]; omega

theorem foldl_shuffleStep_perm (ks : List ℕ) (l0 : List ℕ) :
    ∀ p : List ℕ × MT, p.1.Perm l0 → (∀ k ∈ ks, k < l0.length) →
      (ks.foldl shuffleStep p).1.Perm l0 := by
  induction ks with
  | nil => intro p hp _; simpa using hp
  | cons k ks ih =>
    intro p hp hk
    simp only [List.foldl_cons]
    apply ih
    · have hk1 : k < p.1.length := by
        rw [hp.length_eq]; exact hk k (by simp)
      have hj : (mtNext p.2).1 % (k + 1) < p.1.length := by
        have := Nat.mod_lt (mtNext p.2).1 (y := k + 1) (by omega)
        omega
      exact (swapL_perm _ _ _ hk1 hj).trans hp
    · intro k' hk'; exact hk k' (by simp [hk'])

/-- Each shuffled block is a permutation of its input. -/
theorem shuffle_perm (l : List ℕ) (g : MT) : (shuffle l g).1.Perm l := by
  unfold shuffle
  apply foldl_shuffleStep_perm
  · exact List.Perm.refl l
  · intro k hk
    have := List.mem_range'_1.mp hk
    omega

theorem buildBlocks_length (nfun : ℕ) :
    ∀ (k : ℕ) (g : MT), (buildBlocks nfun k g).1.length = k := by
  intro k
  induction k with
  | zero => intro g; rfl
  | succ n ih => intro g; simp [buildBlocks, ih]

theorem buildBlocks_mem_perm (nfun : ℕ) :
    ∀ (k : ℕ) (g : MT) (b : List ℕ), b ∈ (buildBlocks nfun k g).1 →
      b.Perm (List.range nfun) := by
  intro k
  induction k with
  | zero => intro g b hb; simp [buildBlocks] at hb
  | succ n ih =>
    intro g b hb
    simp only [buildBlocks, List.mem_cons] at hb
    rcases hb with hb | hb
    · subst hb; exact shuffle_perm _ _
    · exact ih _ _ hb

theorem schedule_length (opt : Options) (nfun : ℕ) :
    (schedule opt nfun).length = opt.iterations + opt.burn_in :=
  buildBlocks_length nfun _ _

theorem schedule_mem_perm (opt : Options) (nfun : ℕ) (b : List ℕ)
    (hb : b ∈ schedule opt nfun) : b.Perm (List.range nfun) :=
  buildBlocks_mem_perm nfun _ _ b hb

theorem schedule_block_count (opt : Options) (nfun : ℕ) (b : List ℕ)
    (hb : b ∈ schedule opt nfun) (c : ℕ) (hc : c < nfun) : List.count c b = 1 := by
  rw [(schedule_mem_perm opt nfun b hb).count_eq]
  exact List.count_eq_one_of_mem (List.nodup_range nfun) (List.mem_range.mpr hc)

/-! ## Facts about the flattened entry sequence -/

theorem entriesOfBlocks_append (bs1 bs2 : List (List ℕ)) :
    ∀ i, entriesOfBlocks i (bs1 ++ bs2) =
      entriesOfBlocks i bs1 ++ entriesOfBlocks (i + bs1.length) bs2 := by
  induction bs1 with
  | nil => intro i; simp [entriesOfBlocks]
  | cons b bs ih =>
    intro i
    show List.map (fun c => (i, c)) b ++ entriesOfBlocks (i + 1) (bs ++ bs2) =
        (List.map (fun c => (i, c)) b ++ entriesOfBlocks (i + 1) bs) ++
          entriesOfBlocks (i + (bs.length + 1)) bs2
    rw [ih (i + 1), List.append_assoc]
    have harith : i + 1 + bs.length = i + (bs.length + 1) := by omega
    rw [harith]

theorem entriesOfBlocks_map_snd (bs : List (List ℕ)) :
    ∀ i, (entriesOfBlocks i bs).map Prod.snd = bs.flatten := by
  induction bs with
  | nil => intro i; simp [entriesOfBlocks]
  | cons b bs ih =>
    intro i
    simp [entriesOfBlocks, ih (i + 1), List.map_map, Function.comp_def]

theorem entriesOfBlocks_mem (bs : List (List ℕ)) :
    ∀ i e, e ∈ entriesOfBlocks i bs →
      i ≤ e.1 ∧ e.1 < i + bs.length ∧ ∃ b ∈ bs, e.2 ∈ b := by
  induction bs with
  | nil => intro i e he; simp [entriesOfBlocks] at he
  | cons b bs ih =>
    intro i e he
    simp only [entriesOfBlocks, List.mem_append, List.mem_map] at he
    rcases he with ⟨c, hc, rfl⟩ | he
    · exact ⟨Nat.le_refl i, by simp only [List.length_cons]; omega, b, by simp, hc⟩
    · obtain ⟨h1, h2, bb, hbb, hcc⟩ := ih (i + 1) e he
      exact ⟨by omega, by simp only [List.length_cons]; omega, bb, by simp [hbb], hcc⟩

/-! ## Characterisation of one dispatch step -/

theorem outAt_init (n c : ℕ) : outAt (initState n) c = {} := by
  unfold outAt initState
  rw [List.getD_eq_getElem?_getD]
  rcases h : (List.replicate n ({} : Timings))[c]? with _ | t
  · rfl
  · have := List.getElem?_mem h
    rw [List.eq_of_mem_replicate this]
    rfl

variable {Result_ : Type} {ε : Type} [Inhabited Result_]

/-- A burn-in round records the time and traces the invocation but touches
neither accumulator, runs no check, and consults no budget. -/
theorem step_burnin (funs : List (ℕ → Result_)) (check : Result_ → ℕ → Except ε Unit)
    (opt : Options) (oracle : ℕ → ℚ) (i : ℕ) (s : LoopState) (c : ℕ)
    (h : i < opt.burn_in) :
    step funs check opt oracle i s c = .ok
      { output := s.output.set c
          { outAt s c with times := (outAt s c).times ++ [oracle s.calls.length] },
        total_time := s.total_time,
        calls := s.calls ++ [c] } := by
  have hn : ¬ opt.burn_in ≤ i := by omega
  simp only [step]
  rw [if_neg (fun hh => hn hh.1), if_neg hn]

/-- A timed round with a budget already met or exceeded is skipped entirely:
the state (invocation trace included) is unchanged. -/
theorem step_skip (funs : List (ℕ → Result_)) (check : Result_ → ℕ → Except ε Unit)
    (opt : Options) (oracle : ℕ → ℚ) (i : ℕ) (s : LoopState) (c : ℕ)
    (h1 : opt.burn_in ≤ i)
    (h2 : capReached opt.max_time_per_function (outAt s c).mean ∨
      capReached opt.max_time_total s.total_time) :
    step funs check opt oracle i s c = .ok s := by
  simp only [step]
  rw [if_pos ⟨h1, h2⟩]

/-- A timed round whose validation callback fails propagates the error. -/
theorem step_exec_err (funs : List (ℕ → Result_)) (check : Result_ → ℕ → Except ε Unit)
    (opt : Options) (oracle : ℕ → ℚ) (i : ℕ) (s : LoopState) (c : ℕ) (e : ε)
    (h1 : opt.burn_in ≤ i)
    (h2 : ¬(capReached opt.max_time_per_function (outAt s c).mean ∨
      capReached opt.max_time_total s.total_time))
    (h3 : check ((funs.getD c (fun _ => default)) s.calls.length) c = .error e) :
    step funs check opt oracle i s c = .error e := by
  simp only [step]
  rw [if_neg (fun hh => h2 hh.2), if_pos h1, h3]

/-- A timed, unskipped round with a passing check: the elapsed time is
appended to the candidate's samples and added to its running sum and, when
a total budget is configured, to the global accumulator. -/
theorem step_exec_ok (funs : List (ℕ → Result_)) (check : Result_ → ℕ → Except ε Unit)
    (opt : Options) (oracle : ℕ → ℚ) (i : ℕ) (s : LoopState) (c : ℕ)
    (h1 : opt.burn_in ≤ i)
    (h2 : ¬(capReached opt.max_time_per_function (outAt s c).mean ∨
      capReached opt.max_time_total s.total_time))
    (h3 : check ((funs.getD c (fun _ => default)) s.calls.length) c = .ok ()) :
    step funs check opt oracle i s c = .ok
      { output := s.output.set c
          { times := (outAt s c).times ++ [oracle s.calls.length],
            mean := (outAt s c).mean + oracle s.calls.length,
            sd := (outAt s c).sd },
        total_time := if opt.max_time_total.isSome
          then s.total_time + oracle s.calls.length else s.total_time,
        calls := s.calls ++ [c] } := by
  simp only [step]
  rw [if_neg (fun hh => h2 hh.2), if_pos h1, h3]

theorem runEntries_append (funs : List (ℕ → Result_)) (check : Result_ → ℕ → Except ε Unit)
    (opt : Options) (oracle : ℕ → ℚ) (es1 es2 : List (ℕ × ℕ)) :
    ∀ s, runEntries funs check opt oracle (es1 ++ es2) s =
      match runEntries funs check opt oracle es1 s with
      | .error e => .error e
      | .ok s' => runEntries funs check opt oracle es2 s' := by
  induction es1 with
  | nil => intro s; rfl
  | cons e rest ih =>
    intro s
    show (match step funs check opt oracle e.1 s e.2 with
      | Except.error err => (Except.error err : Except ε LoopState)
      | Except.ok s' => runEntries funs check opt oracle (rest ++ es2) s') = _
    cases hst : step funs check opt oracle e.1 s e.2 with
    | error err => simp [runEntries, hst]
    | ok s' =>
      simp only [runEntries, hst]
      exact ih s'

/-! ## The burn-in phase -/

/-- Processing entries that all lie in burn-in rounds always succeeds, traces
every invocation, appends one time per occurrence, and leaves the running
sums, standard deviations and the total-time accumulator untouched. -/
theorem run_burnin (funs : List (ℕ → Result_)) (check : Result_ → ℕ → Except ε Unit)
    (opt : Options) (oracle : ℕ → ℚ) (es : List (ℕ × ℕ)) :
    ∀ s : LoopState, (∀ e ∈ es, e.1 < opt.burn_in ∧ e.2 < s.output.length) →
      ∃ s', runEntries funs check opt oracle es s = .ok s' ∧
        s'.output.length = s.output.length ∧
        s'.total_time = s.total_time ∧
        s'.calls = s.calls ++ es.map Prod.snd ∧
        ∀ c, (outAt s' c).mean = (outAt s c).mean ∧
          (outAt s' c).sd = (outAt s c).sd ∧
          (outAt s' c).times.length =
            (outAt s c).times.length + List.count c (es.map Prod.snd) := by
  induction es with
  | nil =>
    intro s _
    exact ⟨s, rfl, rfl, rfl, by simp, fun c => ⟨rfl, rfl, by simp⟩⟩
  | cons e rest ih =>
    intro s hes
    obtain ⟨he1, he2⟩ := hes e (by simp)
    have hstep := step_burnin funs check opt oracle e.1 s e.2 he1
    set s1 : LoopState :=
      { output := s.output.set e.2
          { outAt s e.2 with times := (outAt s e.2).times ++ [oracle s.calls.length] },
        total_time := s.total_time,
        calls := s.calls ++ [e.2] } with hs1
    have hrest : ∀ e' ∈ rest, e'.1 < opt.burn_in ∧ e'.2 < s1.output.length := by
      intro e' he'
      have := hes e' (by simp [he'])
      simpa [hs1] using this
    obtain ⟨s', hrun, hlen, htot, hcalls, hout⟩ := ih s1 hrest
    refine ⟨s', ?_, ?_, ?_, ?_, ?_⟩
    · show (match step funs check opt oracle e.1 s e.2 with
        | Except.error err => (Except.error err : Except ε LoopState)
        | Except.ok s2 => runEntries funs check opt oracle rest s2) = .ok s'
      rw [hstep]
      exact hrun
    · rw [hlen, hs1]; simp
    · rw [htot]
    · rw [hcalls, hs1]; simp
    · intro c
      obtain ⟨hm, hsd, hl⟩ := hout c
      by_cases hc : e.2 = c
      · subst hc
        have hsel : outAt s1 e.2 =
            { outAt s e.2 with times := (outAt s e.2).times ++ [oracle s.calls.length] } := by
          rw [hs1]; exact getD_set_self _ _ _ _ he2
        rw [hsel] at hm hsd hl
        refine ⟨hm, hsd, ?_⟩
        rw [hl]
        simp [List.count_cons]
        omega
      · have hne : outAt s1 c = outAt s c := by
          rw [hs1]; exact getD_set_ne _ _ _ hc
        rw [hne] at hm hsd hl
        refine ⟨hm, hsd, ?_⟩
        rw [hl]
        simp [List.count_cons, hc]

/-! ## The timed phase -/

/-- Inversion of a successful timed-round step: either a budget was reached
and the state is unchanged, or no budget was reached and the candidate was
executed with a passing check. -/
theorem step_ok_cases (funs : List (ℕ → Result_)) (check : Result_ → ℕ → Except ε Unit)
    (opt : Options) (oracle : ℕ → ℚ) (i : ℕ) (s s1 : LoopState) (c : ℕ)
    (h1 : opt.burn_in ≤ i)
    (hst : step funs check opt oracle i s c = .ok s1) :
    ((capReached opt.max_time_per_function (outAt s c).mean ∨
        capReached opt.max_time_total s.total_time) ∧ s1 = s) ∨
    (¬(capReached opt.max_time_per_function (outAt s c).mean ∨
        capReached opt.max_time_total s.total_time) ∧
      s1 =
        { output := s.output.set c
            { times := (outAt s c).times ++ [oracle s.calls.length],
              mean := (outAt s c).mean + oracle s.calls.length,
              sd := (outAt s c).sd },
          total_time := if opt.max_time_total.isSome
            then s.total_time + oracle s.calls.length else s.total_time,
          calls := s.calls ++ [c] }) := by
  by_cases h2 : capReached opt.max_time_per_function (outAt s c).mean ∨
      capReached opt.max_time_total s.total_time
  · left
    rw [step_skip funs check opt oracle i s c h1 h2] at hst
    injection hst with hh
    exact ⟨h2, hh.symm⟩
  · right
    cases h3 : check ((funs.getD c (fun _ => default)) s.calls.length) c with
    | error e =>
      rw [step_exec_err funs check opt oracle i s c e h1 h2 h3] at hst
      cases hst
    | ok u =>
      cases u
      rw [step_exec_ok funs check opt oracle i s c h1 h2 h3] at hst
      injection hst with hh
      exact ⟨h2, hh.symm⟩

/-- Projections of the state produced by an executed (unskipped) timed step,
as named facts usable without restating the record literal. -/
theorem step_exec_ok_facts (funs : List (ℕ → Result_)) (check : Result_ → ℕ → Except ε Unit)
    (opt : Options) (oracle : ℕ → ℚ) (i : ℕ) (s s1 : LoopState) (c : ℕ)
    (hs1 : s1 =
        { output := s.output.set c
            { times := (outAt s c).times ++ [oracle s.calls.length],
              mean := (outAt s c).mean + oracle s.calls.length,
              sd := (outAt s c).sd },
          total_time := if opt.max_time_total.isSome
            then s.total_time + oracle s.calls.length else s.total_time,
          calls := s.calls ++ [c] }) :
    s1.output.length = s.output.length ∧
    s1.calls = s.calls ++ [c] ∧
    (c < s.output.length →
      (outAt s1 c).times = (outAt s c).times ++ [oracle s.calls.length] ∧
      (outAt s1 c).mean = (outAt s c).mean + oracle s.calls.length ∧
      (outAt s1 c).sd = (outAt s c).sd) ∧
    (s.output.length ≤ c → ∀ c', outAt s1 c' = outAt s c') ∧
    (∀ c', c ≠ c' → outAt s1 c' = outAt s c') ∧
    (opt.max_time_total = none → s1.total_time = s.total_time) := by
  subst hs1
  refine ⟨by simp, rfl, ?_, ?_, ?_, ?_⟩
  · intro hlt
    have hsel := getD_set_self s.output c
      { times := (outAt s c).times ++ [oracle s.calls.length],
        mean := (outAt s c).mean + oracle s.calls.length,
        sd := (outAt s c).sd } ({} : Timings) hlt
    exact ⟨(congrArg Timings.times hsel).trans rfl,
      (congrArg Timings.mean hsel).trans rfl, (congrArg Timings.sd hsel).trans rfl⟩
  · intro hge c'
    unfold outAt
    rw [List.set_eq_of_length_le hge]
  · intro c' hc'
    exact getD_set_ne _ _ _ hc'
  · intro hnone
    simp [hnone]

/-- Over timed rounds, each candidate's sample list only grows, its running
sum grows by exactly the sum of the appended samples, its sd field is
untouched, and the number of appended samples is at most the number of its
scheduled occurrences. -/
theorem run_timed_le (funs : List (ℕ → Result_)) (check : Result_ → ℕ → Except ε Unit)
    (opt : Options) (oracle : ℕ → ℚ) (es : List (ℕ × ℕ)) :
    ∀ s s' : LoopState, (∀ e ∈ es, opt.burn_in ≤ e.1) →
      runEntries funs check opt oracle es s = .ok s' →
      s'.output.length = s.output.length ∧
      ∀ c, ∃ u : List ℚ,
        (outAt s' c).times = (outAt s c).times ++ u ∧
        (outAt s' c).mean = (outAt s c).mean + u.sum ∧
        (outAt s' c).sd = (outAt s c).sd ∧
        u.length ≤ List.count c (es.map Prod.snd) := by
  induction es with
  | nil =>
    intro s s' _ h
    injection h with h
    subst h
    exact ⟨rfl, fun c => ⟨[], by simp, by simp, rfl, by simp⟩⟩
  | cons e rest ih =>
    intro s s' hes h
    have he1 : opt.burn_in ≤ e.1 := hes e (by simp)
    rw [show runEntries funs check opt oracle (e :: rest) s =
      (match step funs check opt oracle e.1 s e.2 with
        | Except.error err => (Except.error err : Except ε LoopState)
        | Except.ok s2 => runEntries funs check opt oracle rest s2) from rfl] at h
    cases hst : step funs check opt oracle e.1 s e.2 with
    | error err => rw [hst] at h; cases h
    | ok s1 =>
      rw [hst] at h
      obtain ⟨hlen, hrel⟩ := ih s1 s' (fun e' he' => hes e' (by simp [he'])) h
      rcases step_ok_cases funs check opt oracle e.1 s s1 e.2 he1 hst with
        ⟨_, hs1⟩ | ⟨_, hs1⟩
      · subst hs1
        refine ⟨hlen, fun c => ?_⟩
        obtain ⟨u, hu1, hu2, hu3, hu4⟩ := hrel c
        refine ⟨u, hu1, hu2, hu3, ?_⟩
        simp only [List.map_cons, List.count_cons] at hu4 ⊢
        omega
      · obtain ⟨hq1, _, hqself, hqoob, hqne, _⟩ :=
          step_exec_ok_facts funs check opt oracle e.1 s s1 e.2 hs1
        refine ⟨by rw [hlen, hq1], fun c => ?_⟩
        obtain ⟨u, hu1, hu2, hu3, hu4⟩ := hrel c
        by_cases hc : e.2 = c
        · subst hc
          by_cases hlt : e.2 < s.output.length
          · obtain ⟨hv1, hv2, hv3⟩ := hqself hlt
            rw [hv1] at hu1
            rw [hv2] at hu2
            rw [hv3] at hu3
            refine ⟨oracle s.calls.length :: u, ?_, ?_, hu3, ?_⟩
            · rw [hu1, List.append_assoc]
              rfl
            · rw [hu2, List.sum_cons]
              ring
            · simp only [List.map_cons, List.count_cons, List.length_cons,
                beq_self_eq_true, if_pos]
              omega
          · rw [hqoob (by omega) e.2] at hu1 hu2 hu3
            refine ⟨u, hu1, hu2, hu3, ?_⟩
            simp only [List.map_cons, List.count_cons]
            omega
        · rw [hqne c hc] at hu1 hu2 hu3
          refine ⟨u, hu1, hu2, hu3, ?_⟩
          simp only [List.map_cons, List.count_cons] at hu4 ⊢
          omega

theorem not_capReached_none (v : ℚ) : ¬ capReached none v := fun h => h

/-- With no budgets configured, no timed entry is ever skipped: every entry
is executed (with a passing check, given overall success), so each
candidate gains exactly one sample per scheduled occurrence and every
invocation is traced. -/
theorem run_timed_exact (funs : List (ℕ → Result_)) (check : Result_ → ℕ → Except ε Unit)
    (opt : Options) (oracle : ℕ → ℚ)
    (hpf : opt.max_time_per_function = none) (htot : opt.max_time_total = none)
    (es : List (ℕ × ℕ)) :
    ∀ s s' : LoopState, (∀ e ∈ es, opt.burn_in ≤ e.1 ∧ e.2 < s.output.length) →
      runEntries funs check opt oracle es s = .ok s' →
      s'.output.length = s.output.length ∧
      s'.calls = s.calls ++ es.map Prod.snd ∧
      ∀ c, ∃ u : List ℚ,
        (outAt s' c).times = (outAt s c).times ++ u ∧
        (outAt s' c).mean = (outAt s c).mean + u.sum ∧
        (outAt s' c).sd = (outAt s c).sd ∧
        u.length = List.count c (es.map Prod.snd) := by
  induction es with
  | nil =>
    intro s s' _ h
    injection h with h
    subst h
    exact ⟨rfl, by simp, fun c => ⟨[], by simp, by simp, rfl, by simp⟩⟩
  | cons e rest ih =>
    intro s s' hes h
    obtain ⟨he1, he2⟩ := hes e (by simp)
    rw [show runEntries funs check opt oracle (e :: rest) s =
      (match step funs check opt oracle e.1 s e.2 with
        | Except.error err => (Except.error err : Except ε LoopState)
        | Except.ok s2 => runEntries funs check opt oracle rest s2) from rfl] at h
    cases hst : step funs check opt oracle e.1 s e.2 with
    | error err => rw [hst] at h; cases h
    | ok s1 =>
      rw [hst] at h
      rcases step_ok_cases funs check opt oracle e.1 s s1 e.2 he1 hst with
        ⟨hcap, _⟩ | ⟨_, hs1⟩
      · rw [hpf, htot] at hcap
        rcases hcap with hh | hh
        · exact absurd hh (not_capReached_none _)
        · exact absurd hh (not_capReached_none _)
      · obtain ⟨hq1, hq2, hqself, _, hqne, _⟩ :=
          step_exec_ok_facts funs check opt oracle e.1 s s1 e.2 hs1
        obtain ⟨hv1, hv2, hv3⟩ := hqself he2
        obtain ⟨hlen, hcalls, hrel⟩ := ih s1 s'
          (fun e' he' => by
            obtain ⟨ha, hb⟩ := hes e' (by simp [he'])
            exact ⟨ha, by rw [hq1]; exact hb⟩) h
        refine ⟨by rw [hlen, hq1], ?_, fun c => ?_⟩
        · rw [hcalls, hq2, List.append_assoc]
          rfl
        · obtain ⟨u, hu1, hu2, hu3, hu4⟩ := hrel c
          by_cases hc : e.2 = c
          · subst hc
            rw [hv1] at hu1
            rw [hv2] at hu2
            rw [hv3] at hu3
            refine ⟨oracle s.calls.length :: u, ?_, ?_, hu3, ?_⟩
            · rw [hu1, List.append_assoc]
              rfl
            · rw [hu2, List.sum_cons]
              ring
            · simp only [List.map_cons, List.count_cons, List.length_cons,
                beq_self_eq_true, if_pos]
              omega
          · rw [hqne c hc] at hu1 hu2 hu3
            refine ⟨u, hu1, hu2, hu3, ?_⟩
            simp only [List.map_cons, List.count_cons] at hu4 ⊢
            simp [hc]
            omega

/-! ## Structure of the full schedule -/

theorem count_flatten_blocks (bs : List (List ℕ)) (n c : ℕ) (hc : c < n)
    (hb : ∀ b ∈ bs, b.Perm (List.range n)) :
    List.count c bs.flatten = bs.length := by
  induction bs with
  | nil => simp
  | cons b rest ih =>
    rw [List.flatten_cons, List.count_append,
      (hb b (by simp)).count_eq,
      List.count_eq_one_of_mem (List.nodup_range n) (List.mem_range.mpr hc),
      ih (fun b' hb' => hb b' (by simp [hb']))]
    simp [Nat.add_comm]

theorem scheduleEntries_split (opt : Options) (nfun : ℕ) :
    scheduleEntries opt nfun =
      entriesOfBlocks 0 ((schedule opt nfun).take opt.burn_in) ++
        entriesOfBlocks opt.burn_in ((schedule opt nfun).drop opt.burn_in) := by
  have hlt : ((schedule opt nfun).take opt.burn_in).length = opt.burn_in := by
    rw [List.length_take, schedule_length]
    omega
  unfold scheduleEntries
  conv_lhs => rw [← List.take_append_drop opt.burn_in (schedule opt nfun)]
  rw [entriesOfBlocks_append, hlt, Nat.zero_add]

theorem esB_bounds (opt : Options) (nfun : ℕ) :
    ∀ e ∈ entriesOfBlocks 0 ((schedule opt nfun).take opt.burn_in),
      e.1 < opt.burn_in ∧ e.2 < nfun := by
  intro e he
  obtain ⟨_, h2, b, hbmem, hcb⟩ := entriesOfBlocks_mem _ _ _ he
  have hblk : b.Perm (List.range nfun) :=
    schedule_mem_perm opt nfun b (List.mem_of_mem_take hbmem)
  have hlt : ((schedule opt nfun).take opt.burn_in).length ≤ opt.burn_in := by
    rw [List.length_take]
    omega
  refine ⟨by omega, ?_⟩
  have := hblk.mem_iff.mp hcb
  exact List.mem_range.mp this

theorem esT_bounds (opt : Options) (nfun : ℕ) :
    ∀ e ∈ entriesOfBlocks opt.burn_in ((schedule opt nfun).drop opt.burn_in),
      opt.burn_in ≤ e.1 ∧ e.2 < nfun := by
  intro e he
  obtain ⟨h1, _, b, hbmem, hcb⟩ := entriesOfBlocks_mem _ _ _ he
  have hblk : b.Perm (List.range nfun) :=
    schedule_mem_perm opt nfun b (List.mem_of_mem_drop hbmem)
  exact ⟨h1, List.mem_range.mp (hblk.mem_iff.mp hcb)⟩

theorem count_esB (opt : Options) (nfun c : ℕ) (hc : c < nfun) :
    List.count c
      ((entriesOfBlocks 0 ((schedule opt nfun).take opt.burn_in)).map Prod.snd) =
      opt.burn_in := by
  rw [entriesOfBlocks_map_snd,
    count_flatten_blocks _ nfun c hc
      (fun b hb => schedule_mem_perm opt nfun b (List.mem_of_mem_take hb)),
    List.length_take, schedule_length]
  omega

theorem count_esT (opt : Options) (nfun c : ℕ) (hc : c < nfun) :
    List.count c
      ((entriesOfBlocks opt.burn_in ((schedule opt nfun).drop opt.burn_in)).map
        Prod.snd) = opt.iterations := by
  rw [entriesOfBlocks_map_snd,
    count_flatten_blocks _ nfun c hc
      (fun b hb => schedule_mem_perm opt nfun b (List.mem_of_mem_drop hb)),
    List.length_drop, schedule_length]
  omega

theorem runEntries_append_ok (funs : List (ℕ → Result_))
    (check : Result_ → ℕ → Except ε Unit) (opt : Options) (oracle : ℕ → ℚ)
    (es1 es2 : List (ℕ × ℕ)) (s s1 : LoopState)
    (h1 : runEntries funs check opt oracle es1 s = .ok s1) :
    runEntries funs check opt oracle (es1 ++ es2) s =
      runEntries funs check opt oracle es2 s1 := by
  rw [runEntries_append, h1]

/-- The state at the end of the dispatch loop, decomposed: there is a
well-defined post-burn-in state `sB` in which every candidate holds exactly
`burn_in` recorded times and a zero running sum, and the final state of each
candidate extends it with at most `iterations` timed samples whose sum is
the running `mean` accumulator. -/
theorem run_main (funs : List (ℕ → Result_)) (check : Result_ → ℕ → Except ε Unit)
    (opt : Options) (oracle : ℕ → ℚ) (s : LoopState)
    (h : runEntries funs check opt oracle (scheduleEntries opt funs.length)
      (initState funs.length) = .ok s) :
    ∃ sB : LoopState,
      runEntries funs check opt oracle
        (entriesOfBlocks 0 ((schedule opt funs.length).take opt.burn_in))
        (initState funs.length) = .ok sB ∧
      s.output.length = funs.length ∧
      ∀ c, c < funs.length → ∃ u : List ℚ,
        (outAt sB c).times.length = opt.burn_in ∧
        (outAt sB c).mean = 0 ∧
        (outAt s c).times = (outAt sB c).times ++ u ∧
        (outAt s c).mean = u.sum ∧
        (outAt s c).sd = some 0 ∧
        u.length ≤ opt.iterations := by
  have hlenInit : (initState funs.length).output.length = funs.length := by
    simp [initState]
  obtain ⟨sB, hB, hBlen, _, _, hBout⟩ :=
    run_burnin funs check opt oracle
      (entriesOfBlocks 0 ((schedule opt funs.length).take opt.burn_in))
      (initState funs.length)
      (fun e he => by
        obtain ⟨h1, h2⟩ := esB_bounds opt funs.length e he
        exact ⟨h1, by rw [hlenInit]; exact h2⟩)
  rw [scheduleEntries_split,
    runEntries_append_ok funs check opt oracle _ _ _ _ hB] at h
  obtain ⟨hTlen, hTrel⟩ := run_timed_le funs check opt oracle _ sB s
    (fun e he => (esT_bounds opt funs.length e he).1) h
  refine ⟨sB, hB, by rw [hTlen, hBlen, hlenInit], fun c hc => ?_⟩
  obtain ⟨hm, hsd, hl⟩ := hBout c
  rw [outAt_init] at hm hsd hl
  obtain ⟨u, hu1, hu2, hu3, hu4⟩ := hTrel c
  refine ⟨u, ?_, ?_, hu1, ?_, ?_, ?_⟩
  · rw [hl, count_esB opt funs.length c hc]
    simp
  · rw [hm]
  · rw [hu2, hm]
    simp
  · rw [hu3, hsd]
  · calc u.length ≤ _ := hu4
      _ = opt.iterations := count_esT opt funs.length c hc

/-- As `run_main`, but with no budgets configured: the number of timed
samples is exactly `iterations` and each candidate is invoked exactly
`iterations + burn_in` times. -/
theorem run_main_exact (funs : List (ℕ → Result_)) (check : Result_ → ℕ → Except ε Unit)
    (opt : Options) (oracle : ℕ → ℚ) (s : LoopState)
    (hpf : opt.max_time_per_function = none) (htot : opt.max_time_total = none)
    (h : runEntries funs check opt oracle (scheduleEntries opt funs.length)
      (initState funs.length) = .ok s) :
    s.output.length = funs.length ∧
    ∀ c, c < funs.length → ∃ bl u : List ℚ,
      (outAt s c).times = bl ++ u ∧
      bl.length = opt.burn_in ∧
      (outAt s c).mean = u.sum ∧
      (outAt s c).sd = some 0 ∧
      u.length = opt.iterations ∧
      List.count c s.calls = opt.iterations + opt.burn_in := by
  have hlenInit : (initState funs.length).output.length = funs.length := by
    simp [initState]
  obtain ⟨sB, hB, hBlen, _, hBcalls, hBout⟩ :=
    run_burnin funs check opt oracle
      (entriesOfBlocks 0 ((schedule opt funs.length).take opt.burn_in))
      (initState funs.length)
      (fun e he => by
        obtain ⟨h1, h2⟩ := esB_bounds opt funs.length e he
        exact ⟨h1, by rw [hlenInit]; exact h2⟩)
  rw [scheduleEntries_split,
    runEntries_append_ok funs check opt oracle _ _ _ _ hB] at h
  obtain ⟨hTlen, hTcalls, hTrel⟩ := run_timed_exact funs check opt oracle hpf htot _ sB s
    (fun e he => ⟨(esT_bounds opt funs.length e he).1, by
      rw [hBlen, hlenInit]; exact (esT_bounds opt funs.length e he).2⟩) h
  refine ⟨by rw [hTlen, hBlen, hlenInit], fun c hc => ?_⟩
  obtain ⟨hm, hsd, hl⟩ := hBout c
  rw [outAt_init] at hm hsd hl
  obtain ⟨u, hu1, hu2, hu3, hu4⟩ := hTrel c
  refine ⟨(outAt sB c).times, u, hu1, ?_, ?_, ?_, ?_, ?_⟩
  · rw [hl, count_esB opt funs.length c hc]
    simp
  · rw [hu2, hm]
    simp
  · rw [hu3, hsd]
  · rw [hu4, count_esT opt funs.length c hc]
  · rw [hTcalls, hBcalls, List.count_append, List.count_append,
      count_esB opt funs.length c hc, count_esT opt funs.length c hc]
    simp [initState, Nat.add_comm]

/-! ## Reducer lemmas -/

theorem reduceTimings_times (b : ℕ) (t : Timings) :
    (reduceTimings b t).times = t.times.drop b := by
  simp only [reduceTimings]
  split <;> rfl

theorem reduceTimings_empty (b : ℕ) (t : Timings) (h : t.times.drop b = []) :
    reduceTimings b t = { times := [], mean := t.mean, sd := t.sd } := by
  unfold reduceTimings
  rw [if_pos h, h]

theorem reduceTimings_nonempty (b : ℕ) (t : Timings) (h : t.times.drop b ≠ []) :
    (reduceTimings b t).mean = t.mean / ((t.times.drop b).length : ℚ) ∧
    (reduceTimings b t).sd =
      divD (t.sd.getD 0 +
          ((t.times.drop b).map
            (fun x => (x - t.mean / ((t.times.drop b).length : ℚ)) *
              (x - t.mean / ((t.times.drop b).length : ℚ)))).sum)
        (((t.times.drop b).length - 1 : ℕ) : ℚ) := by
  simp only [reduceTimings]
  rw [if_neg h]
  exact ⟨rfl, by rw [foldl_add_eq_sum]⟩

theorem reduceTimings_default (b : ℕ) : reduceTimings b ({} : Timings) = {} := by
  simp [reduceTimings]

theorem getD_map_reduce (l : List Timings) (b c : ℕ) :
    (l.map (reduceTimings b)).getD c {} = reduceTimings b (l.getD c {}) := by
  have h := List.getD_map l ({} : Timings) (n := c) (reduceTimings b)
  rw [reduceTimings_default] at h
  exact h

/-- Inversion of a successful `time` call: the loop ran to completion and
the output is the reduced per-candidate state. -/
theorem time_ok_inv (funs : List (ℕ → Result_)) (check : Result_ → ℕ → Except ε Unit)
    (opt : Options) (oracle : ℕ → ℚ) (out : List Timings)
    (h : time funs check opt oracle = .ok out) :
    ∃ s, runEntries funs check opt oracle (scheduleEntries opt funs.length)
        (initState funs.length) = .ok s ∧
      out = s.output.map (reduceTimings opt.burn_in) := by
  simp only [time] at h
  cases hr : runEntries funs check opt oracle (scheduleEntries opt funs.length)
      (initState funs.length) with
  | error e =>
    rw [hr] at h
    exact Except.noConfusion h
  | ok s =>
    rw [hr] at h
    replace h : Except.ok (s.output.map (reduceTimings opt.burn_in)) =
        Except.ok out := h
    injection h with h
    exact ⟨s, rfl, h.symm⟩

/-! ## Claim theorems -/

theorem sum_map_length_const (bs : List (List ℕ)) (n : ℕ)
    (h : ∀ b ∈ bs, b.length = n) : (bs.map List.length).sum = bs.length * n := by
  induction bs with
  | nil => simp
  | cons b rest ih =>
    simp only [List.map_cons, List.sum_cons, List.length_cons]
    rw [h b (by simp), ih (fun b' hb' => h b' (by simp [hb']))]
    ring

/-- C4: the generated schedule is a flat sequence of candidate indices of
length `N * (iterations + burn_in)`, consisting of consecutive blocks of
length `N`, each block a permutation of `{0, …, N-1}`, produced by a single
pseudo-random generator initialized with `seed` and threaded monotonically
across blocks (`buildBlocks` passes each block's final generator state to
the next block and never re-seeds); consequently the schedule depends only
on the seed and the number of rounds `iterations + burn_in` (and `N`), so
it is identical across repeated runs with the same configuration. -/
theorem claim4_schedule_structure (opt opt' : Options) (nfun : ℕ)
    (hseed : opt.seed = opt'.seed)
    (hrounds : opt.iterations + opt.burn_in = opt'.iterations + opt'.burn_in) :
    order opt nfun = (schedule opt nfun).flatten ∧
    (schedule opt nfun).length = opt.iterations + opt.burn_in ∧
    (∀ b ∈ schedule opt nfun, b.length = nfun ∧ b.Perm (List.range nfun)) ∧
    (order opt nfun).length = nfun * (opt.iterations + opt.burn_in) ∧
    schedule opt nfun = schedule opt' nfun := by
  have hblocks : ∀ b ∈ schedule opt nfun,
      b.length = nfun ∧ b.Perm (List.range nfun) := by
    intro b hb
    have hp := schedule_mem_perm opt nfun b hb
    exact ⟨by rw [hp.length_eq, List.length_range], hp⟩
  refine ⟨rfl, schedule_length opt nfun, hblocks, ?_, ?_⟩
  · rw [order, List.length_flatten,
      sum_map_length_const _ nfun (fun b hb => (hblocks b hb).1), schedule_length]
    ring
  · unfold schedule
    rw [hseed, hrounds]

theorem claim4_schedule_structure_witness :
    order { iterations := 2, burn_in := 1, seed := 5 } 1 =
      (schedule { iterations := 2, burn_in := 1, seed := 5 } 1).flatten ∧
    schedule { iterations := 2, burn_in := 1, seed := 5 } 1 =
      schedule { iterations := 1, burn_in := 2, seed := 5 } 1 :=
  ⟨(claim4_schedule_structure { iterations := 2, burn_in := 1, seed := 5 }
      { iterations := 1, burn_in := 2, seed := 5 } 1 rfl rfl).1,
    (claim4_schedule_structure { iterations := 2, burn_in := 1, seed := 5 }
      { iterations := 1, burn_in := 2, seed := 5 } 1 rfl rfl).2.2.2.2⟩

/-- C1: in a timed round (`burn_in ≤ i`), if the per-function budget is set
and the candidate's running accumulator meets/exceeds it, or the total
budget is set and the global accumulator meets/exceeds it, the schedule
entry is skipped entirely — the state is returned unchanged, so the
candidate is not invoked (the invocation trace `calls` is unchanged), no
sample is appended, and the check is not called. Otherwise the candidate is
invoked with the elapsed duration appended to its samples; the check is
called on the result and the candidate's index (its error propagating), and
on success the duration is added to the candidate's running sum and, when
`max_time_total` is set, to the global accumulator. -/
theorem claim1_timed_round_dispatch (funs : List (ℕ → Result_))
    (check : Result_ → ℕ → Except ε Unit) (opt : Options) (oracle : ℕ → ℚ)
    (i : ℕ) (s : LoopState) (c : ℕ) (h1 : opt.burn_in ≤ i) :
    ((capReached opt.max_time_per_function (outAt s c).mean ∨
        capReached opt.max_time_total s.total_time) →
      step funs check opt oracle i s c = .ok s) ∧
    (¬(capReached opt.max_time_per_function (outAt s c).mean ∨
        capReached opt.max_time_total s.total_time) →
      (∀ e, check ((funs.getD c (fun _ => default)) s.calls.length) c = .error e →
        step funs check opt oracle i s c = .error e) ∧
      (check ((funs.getD c (fun _ => default)) s.calls.length) c = .ok () →
        step funs check opt oracle i s c = .ok
          { output := s.output.set c
              { times := (outAt s c).times ++ [oracle s.calls.length],
                mean := (outAt s c).mean + oracle s.calls.length,
                sd := (outAt s c).sd },
            total_time := if opt.max_time_total.isSome
              then s.total_time + oracle s.calls.length else s.total_time,
            calls := s.calls ++ [c] })) := by
  refine ⟨fun h2 => step_skip funs check opt oracle i s c h1 h2, fun h2 => ⟨?_, ?_⟩⟩
  · intro e h3
    exact step_exec_err funs check opt oracle i s c e h1 h2 h3
  · intro h3
    exact step_exec_ok funs check opt oracle i s c h1 h2 h3

theorem claim1_timed_round_dispatch_witness :
    step [fun _ => (0 : ℕ)] (fun _ _ => (Except.ok () : Except ℕ Unit))
      { iterations := 1, burn_in := 0, seed := 1,
        max_time_per_function := some 2, max_time_total := none }
      (fun _ => 1) 0 ⟨[⟨[3], 3, some 0⟩], 0, [0]⟩ 0 =
      .ok ⟨[⟨[3], 3, some 0⟩], 0, [0]⟩ :=
  (claim1_timed_round_dispatch [fun _ => (0 : ℕ)]
    (fun _ _ => (Except.ok () : Except ℕ Unit))
    { iterations := 1, burn_in := 0, seed := 1,
      max_time_per_function := some 2, max_time_total := none }
    (fun _ => 1) 0 ⟨[⟨[3], 3, some 0⟩], 0, [0]⟩ 0 (by decide)).1
    (Or.inl (by decide))

/-- C5: in a burn-in round (`i < burn_in`) the candidate is invoked
unconditionally — the theorem needs no hypothesis about the budgets, which
are never consulted; the call is traced and its duration recorded, but the
validation callback is not run (the step cannot fail) and neither the
per-function running sum nor the global total-time accumulator changes.
The recorded burn-in duration is discarded from the final output: the
reduction keeps only the entries after the first `burn_in`. -/
theorem claim5_burnin_round (funs : List (ℕ → Result_))
    (check : Result_ → ℕ → Except ε Unit) (opt : Options) (oracle : ℕ → ℚ)
    (i : ℕ) (s : LoopState) (c : ℕ) (t : Timings) (h : i < opt.burn_in) :
    step funs check opt oracle i s c = .ok
      { output := s.output.set c
          { outAt s c with times := (outAt s c).times ++ [oracle s.calls.length] },
        total_time := s.total_time,
        calls := s.calls ++ [c] } ∧
    (reduceTimings opt.burn_in t).times = t.times.drop opt.burn_in :=
  ⟨step_burnin funs check opt oracle i s c h, reduceTimings_times opt.burn_in t⟩

theorem claim5_burnin_round_witness :
    step [fun _ => (0 : ℕ)] (fun _ _ => (Except.ok () : Except ℕ Unit))
      { iterations := 1, burn_in := 1, seed := 1,
        max_time_per_function := some 0, max_time_total := some 0 }
      (fun _ => 1) 0 ⟨[⟨[], 0, some 0⟩], 5, []⟩ 0 =
      .ok ⟨[⟨[1], 0, some 0⟩], 5, [0]⟩ ∧
    (reduceTimings 1 ⟨[7, 9], 0, some 0⟩).times = [9] :=
  ⟨(claim5_burnin_round [fun _ => (0 : ℕ)]
      (fun _ _ => (Except.ok () : Except ℕ Unit))
      { iterations := 1, burn_in := 1, seed := 1,
        max_time_per_function := some 0, max_time_total := some 0 }
      (fun _ => 1) 0 ⟨[⟨[], 0, some 0⟩], 5, []⟩ 0 ⟨[7, 9], 0, some 0⟩
      (by decide)).1,
    (claim5_burnin_round [fun _ => (0 : ℕ)]
      (fun _ _ => (Except.ok () : Except ℕ Unit))
      { iterations := 1, burn_in := 1, seed := 1,
        max_time_per_function := some 0, max_time_total := some 0 }
      (fun _ => 1) 0 ⟨[⟨[], 0, some 0⟩], 5, []⟩ 0 ⟨[7, 9], 0, some 0⟩
      (by decide)).2⟩

/-- C2: for every candidate whose trimmed sample sequence is non-empty, the
reported mean is the arithmetic mean of that sequence (the running sum —
which contains exactly the timed samples — divided by the count), and the
reported standard deviation is the sum of squared deviations from the
reported mean divided by `count - 1` (Bessel's correction), where the
division is the IEEE `divD` (so `count = 1` yields the non-finite value
`none`); both are in the same (seconds) units as the inputs. -/
theorem claim2_mean_and_bessel_sd (funs : List (ℕ → Result_))
    (check : Result_ → ℕ → Except ε Unit) (opt : Options) (oracle : ℕ → ℚ)
    (out : List Timings) (c : ℕ)
    (h : time funs check opt oracle = .ok out) (hc : c < out.length)
    (hne : (out.getD c {}).times ≠ []) :
    (out.getD c {}).mean =
      (out.getD c {}).times.sum / ((out.getD c {}).times.length : ℚ) ∧
    (out.getD c {}).sd =
      divD (((out.getD c {}).times.map
          (fun x => (x - (out.getD c {}).mean) * (x - (out.getD c {}).mean))).sum)
        (((out.getD c {}).times.length - 1 : ℕ) : ℚ) := by
  obtain ⟨s, hrun, hout⟩ := time_ok_inv funs check opt oracle out h
  obtain ⟨sB, _, hslen, hrel⟩ := run_main funs check opt oracle s hrun
  have hc' : c < funs.length := by
    rw [hout, List.length_map, hslen] at hc
    exact hc
  obtain ⟨u, hBl, _, hu1, hu2, hu3, _⟩ := hrel c hc'
  have hget : out.getD c {} = reduceTimings opt.burn_in (outAt s c) := by
    rw [hout]
    exact getD_map_reduce s.output opt.burn_in c
  have htr : (outAt s c).times.drop opt.burn_in = u := by
    rw [hu1, ← hBl]
    exact List.drop_left _ _
  have hne' : (outAt s c).times.drop opt.burn_in ≠ [] := by
    rw [hget, reduceTimings_times] at hne
    exact hne
  obtain ⟨hm, hsd⟩ := reduceTimings_nonempty opt.burn_in (outAt s c) hne'
  rw [htr] at hm hsd
  rw [hu2] at hm hsd
  rw [hu3] at hsd
  have hsum : u.sum = (out.getD c {}).times.sum := by
    rw [hget, reduceTimings_times, htr]
  have hlen' : u.length = (out.getD c {}).times.length := by
    rw [hget, reduceTimings_times, htr]
  have hmean : (out.getD c {}).mean = u.sum / (u.length : ℚ) := by
    rw [hget, hm]
  constructor
  · rw [hmean, hsum, hlen']
  · rw [hget, hsd, reduceTimings_times, htr, hm]
    simp

theorem claim2_mean_and_bessel_sd_witness :
    ([({ times := [1, 1], mean := 1, sd := some 0 } : Timings)].getD 0 {}).mean =
      ([({ times := [1, 1], mean := 1, sd := some 0 } : Timings)].getD 0
          {}).times.sum /
        ((([({ times := [1, 1], mean := 1, sd := some 0 } : Timings)].getD 0
          {}).times.length : ℕ) : ℚ) ∧
    ([({ times := [1, 1], mean := 1, sd := some 0 } : Timings)].getD 0 {}).sd =
      divD ((([({ times := [1, 1], mean := 1, sd := some 0 } : Timings)].getD 0
            {}).times.map
          (fun x => (x - ([({ times := [1, 1], mean := 1, sd := some 0 } :
              Timings)].getD 0 {}).mean) *
            (x - ([({ times := [1, 1], mean := 1, sd := some 0 } :
              Timings)].getD 0 {}).mean))).sum)
        ((([({ times := [1, 1], mean := 1, sd := some 0 } : Timings)].getD 0
          {}).times.length - 1 : ℕ) : ℚ) :=
  claim2_mean_and_bessel_sd [fun _ => (0 : ℕ)]
    (fun _ _ => (Except.ok () : Except ℕ Unit))
    { iterations := 2, burn_in := 1, seed := 9 } (fun _ => 1)
    [{ times := [1, 1], mean := 1, sd := some 0 }] 0
    (by norm_num [time, scheduleEntries, schedule, buildBlocks, shuffle,
      entriesOfBlocks, runEntries, step, initState, outAt, capReached,
      reduceTimings, divD, List.range, List.range', List.cons_ne_nil])
    (by norm_num) (by simp)

/-- C7: a candidate whose trimmed sample sequence is empty (possible under
tight budgets or `iterations = 0`) reports mean and standard deviation
zero; the variance pass is skipped (the reducer's empty branch leaves both
accumulators as they stand, and the running sum of a candidate with no
timed samples is zero) and the run still returns `.ok`, not an error. -/
theorem claim7_zero_samples_zero_stats (funs : List (ℕ → Result_))
    (check : Result_ → ℕ → Except ε Unit) (opt : Options) (oracle : ℕ → ℚ)
    (out : List Timings) (c : ℕ)
    (h : time funs check opt oracle = .ok out) (hc : c < out.length)
    (hemp : (out.getD c {}).times = []) :
    (out.getD c {}).mean = 0 ∧ (out.getD c {}).sd = some 0 := by
  obtain ⟨s, hrun, hout⟩ := time_ok_inv funs check opt oracle out h
  obtain ⟨sB, _, hslen, hrel⟩ := run_main funs check opt oracle s hrun
  have hc' : c < funs.length := by
    rw [hout, List.length_map, hslen] at hc
    exact hc
  obtain ⟨u, hBl, _, hu1, hu2, hu3, _⟩ := hrel c hc'
  have hget : out.getD c {} = reduceTimings opt.burn_in (outAt s c) := by
    rw [hout]
    exact getD_map_reduce s.output opt.burn_in c
  have htr : (outAt s c).times.drop opt.burn_in = u := by
    rw [hu1, ← hBl]
    exact List.drop_left _ _
  have hu : u = [] := by
    rw [hget, reduceTimings_times, htr] at hemp
    exact hemp
  have hred := reduceTimings_empty opt.burn_in (outAt s c) (by rw [htr, hu])
  rw [hget, hred]
  subst hu
  exact ⟨by rw [hu2]; rfl, by rw [hu3]⟩

theorem claim7_zero_samples_zero_stats_witness :
    ([({ times := [], mean := 0, sd := some 0 } : Timings)].getD 0 {}).mean = 0 ∧
    ([({ times := [], mean := 0, sd := some 0 } : Timings)].getD 0 {}).sd = some 0 :=
  claim7_zero_samples_zero_stats [fun _ => (0 : ℕ)]
    (fun _ _ => (Except.ok () : Except ℕ Unit))
    { iterations := 2, burn_in := 0, seed := 9, max_time_total := some 0 }
    (fun _ => 1) [{ times := [], mean := 0, sd := some 0 }] 0
    (by norm_num [time, scheduleEntries, schedule, buildBlocks, shuffle,
      entriesOfBlocks, runEntries, step, initState, outAt, capReached,
      reduceTimings, divD, List.range, List.range', List.cons_ne_nil])
    (by norm_num) rfl

/-- C8: a candidate with exactly one trimmed sample hits the unguarded
Bessel division by `count - 1 = 0` (a `size_t` subtraction), so the
reported standard deviation is the non-finite IEEE value, modelled as
`none`; the run itself still returns `.ok` — no error and no clamping. -/
theorem claim8_single_sample_sd_nonfinite (funs : List (ℕ → Result_))
    (check : Result_ → ℕ → Except ε Unit) (opt : Options) (oracle : ℕ → ℚ)
    (out : List Timings) (c : ℕ)
    (h : time funs check opt oracle = .ok out) (hc : c < out.length)
    (hone : (out.getD c {}).times.length = 1) :
    (out.getD c {}).sd = none := by
  obtain ⟨s, hrun, hout⟩ := time_ok_inv funs check opt oracle out h
  have hget : out.getD c {} = reduceTimings opt.burn_in (outAt s c) := by
    rw [hout]
    exact getD_map_reduce s.output opt.burn_in c
  have hlen1 : ((outAt s c).times.drop opt.burn_in).length = 1 := by
    rw [hget, reduceTimings_times] at hone
    exact hone
  have hne' : (outAt s c).times.drop opt.burn_in ≠ [] := by
    intro hh
    rw [hh] at hlen1
    cases hlen1
  obtain ⟨_, hsd⟩ := reduceTimings_nonempty opt.burn_in (outAt s c) hne'
  rw [hget, hsd, hlen1]
  unfold divD
  rw [if_pos]
  simp

theorem claim8_single_sample_sd_nonfinite_witness :
    ([({ times := [1], mean := 1, sd := none } : Timings)].getD 0 {}).sd = none :=
  claim8_single_sample_sd_nonfinite [fun _ => (0 : ℕ)]
    (fun _ _ => (Except.ok () : Except ℕ Unit))
    { iterations := 1, burn_in := 2, seed := 9 } (fun _ => 1)
    [{ times := [1], mean := 1, sd := none }] 0
    (by norm_num [time, scheduleEntries, schedule, buildBlocks, shuffle,
      entriesOfBlocks, runEntries, step, initState, outAt, capReached,
      reduceTimings, divD, List.range, List.range', List.cons_ne_nil])
    (by norm_num) rfl

theorem entriesOfBlocks_nil_blocks (bs : List (List ℕ)) (h : ∀ b ∈ bs, b = []) :
    ∀ i, entriesOfBlocks i bs = [] := by
  induction bs with
  | nil => intro i; rfl
  | cons b rest ih =>
    intro i
    rw [show entriesOfBlocks i (b :: rest) =
        b.map (fun c => (i, c)) ++ entriesOfBlocks (i + 1) rest from rfl,
      h b (by simp), ih (fun b' hb' => h b' (by simp [hb'])) (i + 1)]
    rfl

/-- C6: a successful `time` call returns exactly one `Timings` record per
input candidate, index-aligned (the output is the per-index reduction of
the per-index loop state); `N = 0` yields `.ok []` — an empty output with
no error. -/
theorem claim6_output_alignment (funs : List (ℕ → Result_))
    (check : Result_ → ℕ → Except ε Unit) (opt : Options) (oracle : ℕ → ℚ) :
    (∀ out, time funs check opt oracle = .ok out → out.length = funs.length) ∧
    (funs = [] → time funs check opt oracle = .ok []) := by
  constructor
  · intro out h
    obtain ⟨s, hrun, hout⟩ := time_ok_inv funs check opt oracle out h
    obtain ⟨sB, _, hslen, _⟩ := run_main funs check opt oracle s hrun
    rw [hout, List.length_map, hslen]
  · intro hf
    subst hf
    have hsched : scheduleEntries opt (List.length ([] : List (ℕ → Result_))) = [] := by
      apply entriesOfBlocks_nil_blocks
      intro b hb
      have hp := schedule_mem_perm opt 0 b hb
      rw [List.range_zero] at hp
      exact hp.eq_nil
    simp only [time, hsched]
    rfl

theorem claim6_output_alignment_witness :
    time ([] : List (ℕ → ℕ)) (fun _ _ => (Except.ok () : Except ℕ Unit)) {}
      (fun _ => 1) = .ok [] :=
  (claim6_output_alignment ([] : List (ℕ → ℕ))
    (fun _ _ => (Except.ok () : Except ℕ Unit)) {} (fun _ => 1)).2 rfl

/-- C9: if the validation callback signals an error at some schedule entry
(after an error-free prefix), `time` returns exactly that error: it
propagates synchronously, no partial result is returned (the `.error`
result carries no timings), and all remaining scheduled work is aborted —
the conclusion holds for an arbitrary schedule suffix `es2`, which is never
consulted. -/
theorem claim9_check_error_aborts (funs : List (ℕ → Result_))
    (check : Result_ → ℕ → Except ε Unit) (opt : Options) (oracle : ℕ → ℚ)
    (es1 es2 : List (ℕ × ℕ)) (i c : ℕ) (s1 : LoopState) (e : ε)
    (hsched : scheduleEntries opt funs.length = es1 ++ (i, c) :: es2)
    (h1 : runEntries funs check opt oracle es1 (initState funs.length) = .ok s1)
    (h2 : step funs check opt oracle i s1 c = .error e) :
    time funs check opt oracle = .error e := by
  have hfull : runEntries funs check opt oracle (scheduleEntries opt funs.length)
      (initState funs.length) = .error e := by
    rw [hsched, runEntries_append_ok funs check opt oracle _ _ _ _ h1]
    show (match step funs check opt oracle i s1 c with
      | Except.error err => (Except.error err : Except ε LoopState)
      | Except.ok s2 => runEntries funs check opt oracle es2 s2) = .error e
    rw [h2]
  simp only [time]
  rw [hfull]

theorem claim9_check_error_aborts_witness :
    time [fun _ => (0 : ℕ)] (fun _ _ => (Except.error 7 : Except ℕ Unit))
      { iterations := 1, burn_in := 0, seed := 3 } (fun _ => 1) = .error 7 :=
  claim9_check_error_aborts [fun _ => (0 : ℕ)]
    (fun _ _ => (Except.error 7 : Except ℕ Unit))
    { iterations := 1, burn_in := 0, seed := 3 } (fun _ => 1)
    [] [] 0 0 (initState 1) 7 (by decide) rfl (by decide)

/-- C3: with neither budget configured, the run records one sample per
candidate per round, so each returned sample sequence has exactly
`iterations` entries; burn-in executions always happen (each candidate is
invoked `iterations + burn_in` times and its raw record holds
`iterations + burn_in` samples) but the first `burn_in` raw entries are
dropped by the reduction and so never appear in the returned sequence nor
feed the statistics, which are computed from the trimmed sequence alone. -/
theorem claim3_no_budget_exact_count (funs : List (ℕ → Result_))
    (check : Result_ → ℕ → Except ε Unit) (opt : Options) (oracle : ℕ → ℚ)
    (out : List Timings) (s : LoopState)
    (hpf : opt.max_time_per_function = none)
    (htot : opt.max_time_total = none)
    (hrun : runEntries funs check opt oracle (scheduleEntries opt funs.length)
      (initState funs.length) = .ok s)
    (hout : out = s.output.map (reduceTimings opt.burn_in)) :
    time funs check opt oracle = .ok out ∧
    ∀ c, c < funs.length →
      (out.getD c {}).times.length = opt.iterations ∧
      (out.getD c {}).times = (outAt s c).times.drop opt.burn_in ∧
      (outAt s c).times.length = opt.iterations + opt.burn_in ∧
      List.count c s.calls = opt.iterations + opt.burn_in := by
  constructor
  · simp only [time]
    rw [hrun, hout]
  · intro c hc
    obtain ⟨hslen, hrel⟩ := run_main_exact funs check opt oracle s hpf htot hrun
    obtain ⟨bl, u, hu1, hBl, hu2, hu3, hu4, hcount⟩ := hrel c hc
    have hget : out.getD c {} = reduceTimings opt.burn_in (outAt s c) := by
      rw [hout]
      exact getD_map_reduce s.output opt.burn_in c
    have htr : (outAt s c).times.drop opt.burn_in = u := by
      rw [hu1, ← hBl]
      exact List.drop_left _ _
    refine ⟨?_, ?_, ?_, hcount⟩
    · rw [hget, reduceTimings_times, htr, hu4]
    · rw [hget, reduceTimings_times]
    · rw [hu1, List.length_append, hBl, hu4]
      omega

theorem claim3_no_budget_exact_count_witness :
    time [fun _ => (0 : ℕ)] (fun _ _ => (Except.ok () : Except ℕ Unit))
      { iterations := 2, burn_in := 1, seed := 9 } (fun _ => 1) =
      .ok [{ times := [1, 1], mean := 1, sd := some 0 }] ∧
    ([({ times := [1, 1], mean := 1, sd := some 0 } : Timings)].getD 0
      {}).times.length = 2 :=
  ⟨(claim3_no_budget_exact_count [fun _ => (0 : ℕ)]
      (fun _ _ => (Except.ok () : Except ℕ Unit))
      { iterations := 2, burn_in := 1, seed := 9 } (fun _ => 1)
      [{ times := [1, 1], mean := 1, sd := some 0 }]
      ⟨[⟨[1, 1, 1], 2, some 0⟩], 0, [0, 0, 0]⟩ rfl rfl
      (by norm_num [time, scheduleEntries, schedule, buildBlocks, shuffle,
        entriesOfBlocks, runEntries, step, initState, outAt, capReached,
        reduceTimings, divD, List.range, List.range', List.cons_ne_nil])
      (by norm_num [reduceTimings, divD, List.cons_ne_nil])).1,
    ((claim3_no_budget_exact_count [fun _ => (0 : ℕ)]
      (fun _ _ => (Except.ok () : Except ℕ Unit))
      { iterations := 2, burn_in := 1, seed := 9 } (fun _ => 1)
      [{ times := [1, 1], mean := 1, sd := some 0 }]
      ⟨[⟨[1, 1, 1], 2, some 0⟩], 0, [0, 0, 0]⟩ rfl rfl
      (by norm_num [time, scheduleEntries, schedule, buildBlocks, shuffle,
        entriesOfBlocks, runEntries, step, initState, outAt, capReached,
        reduceTimings, divD, List.range, List.range', List.cons_ne_nil])
      (by norm_num [reduceTimings, divD, List.cons_ne_nil])).2 0 (by norm_num)).1⟩

/-- C10: at the start of the reduction phase, every candidate's raw times
vector holds at least `burn_in` entries, and its first `burn_in` entries
are exactly the candidate's burn-in measurements — the times it held at the
end of the burn-in phase (state `sB`), whose rounds always record a sample
and never consult the budgets; hence the reduction's erase of the first
`burn_in` entries is within bounds and removes exactly the burn-in
samples. -/
theorem claim10_burnin_prefix_safety (funs : List (ℕ → Result_))
    (check : Result_ → ℕ → Except ε Unit) (opt : Options) (oracle : ℕ → ℚ)
    (s : LoopState)
    (hrun : runEntries funs check opt oracle (scheduleEntries opt funs.length)
      (initState funs.length) = .ok s) :
    ∃ sB : LoopState,
      runEntries funs check opt oracle
        (entriesOfBlocks 0 ((schedule opt funs.length).take opt.burn_in))
        (initState funs.length) = .ok sB ∧
      ∀ c, c < funs.length →
        opt.burn_in ≤ (outAt s c).times.length ∧
        (outAt sB c).times.length = opt.burn_in ∧
        (outAt s c).times.take opt.burn_in = (outAt sB c).times ∧
        (reduceTimings opt.burn_in (outAt s c)).times =
          (outAt s c).times.drop opt.burn_in := by
  obtain ⟨sB, hB, _, hrel⟩ := run_main funs check opt oracle s hrun
  refine ⟨sB, hB, fun c hc => ?_⟩
  obtain ⟨u, hBl, _, hu1, _, _, _⟩ := hrel c hc
  refine ⟨?_, hBl, ?_, reduceTimings_times opt.burn_in (outAt s c)⟩
  · rw [hu1, List.length_append, hBl]
    omega
  · rw [hu1, ← hBl]
    exact List.take_left _ _

theorem claim10_burnin_prefix_safety_witness :
    1 ≤ (outAt ⟨[⟨[1, 1, 1], 2, some 0⟩], 0, [0, 0, 0]⟩ 0).times.length ∧
    (outAt ⟨[⟨[1, 1, 1], 2, some 0⟩], 0, [0, 0, 0]⟩ 0).times.take 1 = [1] ∧
    (reduceTimings 1 (outAt ⟨[⟨[1, 1, 1], 2, some 0⟩], 0, [0, 0, 0]⟩ 0)).times =
      [1, 1] := by
  obtain ⟨sB, hB, hrel⟩ := claim10_burnin_prefix_safety [fun _ => (0 : ℕ)]
    (fun _ _ => (Except.ok () : Except ℕ Unit))
    { iterations := 2, burn_in := 1, seed := 9 } (fun _ => 1)
    ⟨[⟨[1, 1, 1], 2, some 0⟩], 0, [0, 0, 0]⟩
    (by norm_num [time, scheduleEntries, schedule, buildBlocks, shuffle,
      entriesOfBlocks, runEntries, step, initState, outAt, capReached,
      reduceTimings, divD, List.range, List.range', List.cons_ne_nil])
  obtain ⟨h1, h2, h3, h4⟩ := hrel 0 (by norm_num)
  have hBlit : runEntries [fun _ => (0 : ℕ)]
      (fun _ _ => (Except.ok () : Except ℕ Unit))
      { iterations := 2, burn_in := 1, seed := 9 } (fun _ => 1)
      (entriesOfBlocks 0 ((schedule { iterations := 2, burn_in := 1, seed := 9 }
        (List.length ([fun _ => (0 : ℕ)] : List (ℕ → ℕ)))).take 1))
      (initState (List.length ([fun _ => (0 : ℕ)] : List (ℕ → ℕ)))) =
      .ok ⟨[⟨[1], 0, some 0⟩], 0, [0]⟩ := by
    norm_num [scheduleEntries, schedule, buildBlocks, shuffle, entriesOfBlocks,
      runEntries, step, initState, outAt, capReached, List.range, List.range']
  have hsB : (Except.ok sB : Except ℕ LoopState) =
      .ok (⟨[⟨[1], 0, some 0⟩], 0, [0]⟩ : LoopState) := hB.symm.trans hBlit
  injection hsB with hsB
  rw [hsB] at h3
  exact ⟨h1, h3, h4⟩

end EzTimer
